import Mathlib

/-!
Verification of the lambda-calculus interpreter core (lexer, parser,
term operations, reducer, evaluator, environment) against its
natural-language specification.  The Rust source is shallowly embedded:
u32 index arithmetic done through `as i32` / `as u32` casts is modelled
as integer arithmetic reduced modulo 2^32, recursion on machine-word
depth counters is modelled on `Nat`, and the evaluator's budgeted loop
is modelled with an explicit fuel equal to the budget it enforces.
-/

namespace LambdaRust

/-- Names: either a de Bruijn index counted outward from the occurrence,
or a free (unresolved) identifier.  From `lambda.rs`, `enum Name`. -/
inductive Name where
  | Bound (depth : Nat)
  | Free (name : String)
deriving DecidableEq

/-- From `lambda.rs`, `Name::rebind`: `*depth = (*depth as i32 + deepen_by) as u32`.
The cast round-trip on two's-complement words equals addition modulo 2^32. -/
def Name.rebind : Name → Int → Name
  | .Bound depth, deepen_by => .Bound (((depth : Int) + deepen_by) % 4294967296).toNat
  | .Free name, _ => .Free name

/-- From `lambda.rs`, `Name::depth`. -/
def Name.depth : Name → Option Nat
  | .Bound depth => some depth
  | .Free _ => none

/-- From `lambda.rs`, `Name::free_for`: `d.is_none() || d > Some(depth)`. -/
def Name.free_for (n : Name) (depth : Nat) : Bool :=
  match n.depth with
  | none => true
  | some d => decide (depth < d)

/-- From `lambda.rs`, `Name::bound_at`: `self.depth() == Some(depth)`. -/
def Name.bound_at (n : Name) (depth : Nat) : Bool :=
  n.depth == some depth

/-- From `lambda.rs`, `enum Term`. -/
inductive Term where
  | Lambda (body : Term)
  | Application (applicand : Term) (argument : Term)
  | Variable (name : Name)
deriving DecidableEq

/-- From `lambda.rs`, `enum Strategy`. -/
inductive Strategy where
  | NormalOrder
  | ApplicativeOrder
deriving DecidableEq

/-- From `lambda.rs`, `enum EvalResult`. -/
inductive EvalResult where
  | NormalForm (t : Term)
  | PossiblyReducible (t : Term)
deriving DecidableEq

/-- From `lambda.rs`, `EvalResult::unwrap`. -/
def EvalResult.unwrap : EvalResult → Term
  | .NormalForm t => t
  | .PossiblyReducible t => t

/-- From `lambda.rs`, `EvalResult::map`. -/
def EvalResult.map (f : Term → Term) : EvalResult → EvalResult
  | .NormalForm t => .NormalForm (f t)
  | .PossiblyReducible t => .PossiblyReducible (f t)

/-- From `lambda.rs`, `Term::rebind_free(deepen_by, depth)`. -/
def Term.rebind_free : Term → Int → Nat → Term
  | .Variable name, deepen_by, depth =>
      if name.free_for depth then .Variable (name.rebind deepen_by) else .Variable name
  | .Application applicand argument, deepen_by, depth =>
      .Application (applicand.rebind_free deepen_by depth) (argument.rebind_free deepen_by depth)
  | .Lambda body, deepen_by, depth =>
      .Lambda (body.rebind_free deepen_by (depth + 1))

/-- From `lambda.rs`, `Term::substitute(depth, deepen_by, with)`. -/
def Term.substitute : Term → Nat → Int → Term → Term
  | .Variable name, depth, deepen_by, w =>
      if name.bound_at depth then w.rebind_free deepen_by 0 else .Variable name
  | .Application applicand argument, depth, deepen_by, w =>
      .Application (applicand.substitute depth deepen_by w) (argument.substitute depth deepen_by w)
  | .Lambda body, depth, deepen_by, w =>
      .Lambda (body.substitute (depth + 1) (deepen_by + 1) w)

/-- From `lambda.rs`, `Term::reduce`, the `Strategy::NormalOrder` branch. -/
def Term.reduceNormal : Term → EvalResult
  | .Variable name => .NormalForm (.Variable name)
  | .Lambda body => (body.reduceNormal).map Term.Lambda
  | .Application applicand argument =>
      match applicand with
      | .Lambda body =>
          .PossiblyReducible ((body.substitute 1 1 argument).rebind_free (-1) 0)
      | _ =>
          match applicand.reduceNormal with
          | .PossiblyReducible t => .PossiblyReducible (.Application t argument)
          | .NormalForm head => (argument.reduceNormal).map (fun t => .Application head t)

/-- From `lambda.rs`, `Term::reduce`: the `ApplicativeOrder` arm is
`unimplemented!()` (a panic), modelled as `none`. -/
def Term.reduce (t : Term) (strategy : Strategy) : Option EvalResult :=
  match strategy with
  | .NormalOrder => some t.reduceNormal
  | .ApplicativeOrder => none

theorem reduceNormal_app (f a : Term) (hf : ∀ b, f ≠ .Lambda b) :
    (Term.Application f a).reduceNormal =
      match f.reduceNormal with
      | .PossiblyReducible t => .PossiblyReducible (.Application t a)
      | .NormalForm head => (a.reduceNormal).map fun t => .Application head t := by
  cases f with
  | Lambda b => exact absurd rfl (hf b)
  | Variable n => rfl
  | Application f1 f2 => rfl

theorem reduceNormal_eq_self_app_aux (f a r : Term)
    (hf : ∀ b, f ≠ .Lambda b)
    (ihf : ∀ s, f.reduceNormal = .NormalForm s → s = f)
    (iha : ∀ s, a.reduceNormal = .NormalForm s → s = a)
    (h : (Term.Application f a).reduceNormal = .NormalForm r) : r = Term.Application f a := by
  rw [reduceNormal_app f a hf] at h
  cases hfr : f.reduceNormal with
  | PossiblyReducible t =>
      rw [hfr] at h
      exact EvalResult.noConfusion h
  | NormalForm head =>
      rw [hfr] at h
      cases har : a.reduceNormal with
      | PossiblyReducible t =>
          rw [har] at h
          exact EvalResult.noConfusion h
      | NormalForm a' =>
          rw [har] at h
          simp only [EvalResult.map, EvalResult.NormalForm.injEq] at h
          rw [← h, ihf head hfr, iha a' har]

theorem reduceNormal_eq_self {t r : Term} (h : t.reduceNormal = .NormalForm r) : r = t := by
  induction t generalizing r with
  | Variable name =>
      simp only [Term.reduceNormal, EvalResult.NormalForm.injEq] at h
      exact h.symm
  | Lambda body ih =>
      cases hb : body.reduceNormal with
      | NormalForm rb =>
          simp only [Term.reduceNormal, hb, EvalResult.map, EvalResult.NormalForm.injEq] at h
          rw [← h, ih hb]
      | PossiblyReducible rb =>
          simp only [Term.reduceNormal, hb, EvalResult.map] at h
          exact EvalResult.noConfusion h
  | Application applicand argument ihf iha =>
      cases applicand with
      | Lambda body =>
          have hstep : (Term.Application (.Lambda body) argument).reduceNormal =
              .PossiblyReducible ((body.substitute 1 1 argument).rebind_free (-1) 0) := rfl
          rw [hstep] at h
          exact EvalResult.noConfusion h
      | Variable name =>
          exact reduceNormal_eq_self_app_aux _ _ _ (fun b => Term.noConfusion)
            (fun s hs => ihf hs) (fun s hs => iha hs) h
      | Application f1 f2 =>
          exact reduceNormal_eq_self_app_aux _ _ _ (fun b => Term.noConfusion)
            (fun s hs => ihf hs) (fun s hs => iha hs) h

/-- One-step β-reduction as performed by the reducer, and its
equivalence closure (β-equivalence of terms). -/
inductive BetaEquiv : Term → Term → Prop where
  | step (t r : Term) : t.reduceNormal = .PossiblyReducible r → BetaEquiv t r
  | refl (t : Term) : BetaEquiv t t
  | symm {a b : Term} : BetaEquiv a b → BetaEquiv b a
  | trans {a b c : Term} : BetaEquiv a b → BetaEquiv b c → BetaEquiv a c

/-- C2: for every term of the shape Application(Lambda(body), argument), one
NormalOrder reduction step returns PossiblyReducible(r), where r is
`body.substitute(depth=1, shift=1, argument)` followed by
`rebind_free(shift=-1, depth=0)` applied to the whole resulting term. -/
theorem c2_redex_contraction (body argument : Term) :
    (Term.Application (.Lambda body) argument).reduce .NormalOrder =
      some (.PossiblyReducible ((body.substitute 1 1 argument).rebind_free (-1) 0)) :=
  rfl

/-- C7: if `reduce(t)` under NormalOrder returns NormalForm(r), then
`reduce(r)` also returns NormalForm(r), and r is β-equivalent to t. -/
theorem c7_normal_form_idempotent (t r : Term)
    (h : t.reduce .NormalOrder = some (.NormalForm r)) :
    r.reduce .NormalOrder = some (.NormalForm r) ∧ BetaEquiv r t := by
  have h' : t.reduceNormal = .NormalForm r := by
    simpa [Term.reduce] using h
  have he : r = t := reduceNormal_eq_self h'
  subst he
  exact ⟨by simpa [Term.reduce] using h', BetaEquiv.refl r⟩

theorem c7_normal_form_idempotent_witness :
    (Term.Lambda (.Variable (.Bound 1))).reduce .NormalOrder =
        some (.NormalForm (Term.Lambda (.Variable (.Bound 1)))) ∧
      BetaEquiv (Term.Lambda (.Variable (.Bound 1))) (Term.Lambda (.Variable (.Bound 1))) :=
  c7_normal_form_idempotent (Term.Lambda (.Variable (.Bound 1)))
    (Term.Lambda (.Variable (.Bound 1))) (by decide)

/-- Closedness at binder depth `d`: no free string-named variables, and no
bound index exceeding the enclosing lambda depth. -/
def Term.closedAt : Term → Nat → Bool
  | .Variable (.Bound k), d => decide (k ≤ d)
  | .Variable (.Free _), _ => false
  | .Lambda body, d => body.closedAt (d + 1)
  | .Application applicand argument, d => applicand.closedAt d && argument.closedAt d

/-- Maximal lambda-nesting depth of a term (bounds every index shift the
reducer can perform on it). -/
def Term.maxNest : Term → Nat
  | .Variable _ => 0
  | .Lambda body => body.maxNest + 1
  | .Application applicand argument => max applicand.maxNest argument.maxNest

theorem rebind_bound_add (k m : Nat) (h : k + m < 4294967296) :
    Name.rebind (.Bound k) (m : Int) = .Bound (k + m) := by
  simp only [Name.rebind]
  congr 1
  have h0 : 0 ≤ (k : Int) + m := by positivity
  have h1 : (k : Int) + m < 4294967296 := by exact_mod_cast h
  rw [Int.emod_eq_of_lt h0 h1]
  omega

theorem rebind_bound_sub_one (k : Nat) (hk : 1 ≤ k) (h : k < 4294967297) :
    Name.rebind (.Bound k) (-1) = .Bound (k - 1) := by
  simp only [Name.rebind]
  congr 1
  have h0 : 0 ≤ (k : Int) + (-1) := by omega
  have h1 : (k : Int) + (-1) < 4294967296 := by omega
  rw [Int.emod_eq_of_lt h0 h1]
  omega

theorem rebind_free_var (k : Nat) (s : Int) (c : Nat) :
    (Term.Variable (.Bound k)).rebind_free s c =
      if c < k then .Variable ((Name.Bound k).rebind s) else .Variable (.Bound k) := by
  by_cases h : c < k <;> simp [Term.rebind_free, Name.free_for, Name.depth, h]

theorem substitute_var (k depth : Nat) (s : Int) (w : Term) :
    (Term.Variable (.Bound k)).substitute depth s w =
      if k = depth then w.rebind_free s 0 else .Variable (.Bound k) := by
  by_cases h : k = depth <;> simp [Term.substitute, Name.bound_at, Name.depth, h]

theorem unwrap_map (f : Term → Term) (e : EvalResult) :
    (EvalResult.map f e).unwrap = f e.unwrap := by
  cases e <;> rfl

theorem rebind_arg_closed (w : Term) :
    ∀ (c d j : Nat), w.closedAt (d + c) = true →
      d + c + w.maxNest + 1 + j < 4294967296 →
      ((w.rebind_free ((1 + j : Nat) : Int) c).rebind_free (-1) (j + c)).closedAt (d + j + c)
        = true := by
  induction w with
  | Variable name =>
      intro c d j hcl hb
      cases name with
      | Free n => simp [Term.closedAt] at hcl
      | Bound k =>
          have hk : k ≤ d + c := by simpa [Term.closedAt] using hcl
          have hmn : Term.maxNest (.Variable (.Bound k)) = 0 := rfl
          rw [hmn] at hb
          by_cases hkc : c < k
          · have e1 : Name.rebind (.Bound k) ((1 + j : Nat) : Int) = .Bound (k + (1 + j)) :=
              rebind_bound_add k (1 + j) (by omega)
            rw [rebind_free_var, if_pos hkc, e1, rebind_free_var,
              if_pos (show j + c < k + (1 + j) by omega),
              rebind_bound_sub_one (k + (1 + j)) (by omega) (by omega)]
            simp [Term.closedAt]
            omega
          · rw [rebind_free_var, if_neg hkc, rebind_free_var,
              if_neg (show ¬ (j + c < k) by omega)]
            simp [Term.closedAt]
            omega
  | Lambda body ih =>
      intro c d j hcl hb
      simp only [Term.rebind_free, Term.closedAt]
      exact ih (c + 1) d j (by simpa [Term.closedAt] using hcl)
        (by simp only [Term.maxNest] at hb; omega)
  | Application f a ihf iha =>
      intro c d j hcl hb
      have hmax1 := Nat.le_max_left f.maxNest a.maxNest
      have hmax2 := Nat.le_max_right f.maxNest a.maxNest
      simp only [Term.maxNest] at hb
      simp only [Term.closedAt, Bool.and_eq_true] at hcl
      simp only [Term.rebind_free, Term.closedAt, Bool.and_eq_true]
      exact ⟨ihf c d j hcl.1 (by omega), iha c d j hcl.2 (by omega)⟩

theorem substitute_rebind_closed (body : Term) :
    ∀ (arg : Term) (d j : Nat),
      body.closedAt (d + 1 + j) = true →
      arg.closedAt d = true →
      d + body.maxNest + arg.maxNest + j + 2 < 4294967296 →
      ((body.substitute (1 + j) ((1 + j : Nat) : Int) arg).rebind_free (-1) j).closedAt (d + j)
        = true := by
  induction body with
  | Variable name =>
      intro arg d j hcl harg hb
      cases name with
      | Free n => simp [Term.closedAt] at hcl
      | Bound k =>
          have hk : k ≤ d + 1 + j := by simpa [Term.closedAt] using hcl
          have hmn : Term.maxNest (.Variable (.Bound k)) = 0 := rfl
          rw [hmn] at hb
          by_cases hke : k = 1 + j
          · rw [substitute_var, if_pos hke]
            exact rebind_arg_closed arg 0 d j harg (by omega)
          · rw [substitute_var, if_neg hke]
            by_cases hjk : j < k
            · rw [rebind_free_var, if_pos hjk,
                rebind_bound_sub_one k (by omega) (by omega)]
              simp [Term.closedAt]
              omega
            · rw [rebind_free_var, if_neg hjk]
              simp [Term.closedAt]
              omega
  | Lambda b ih =>
      intro arg d j hcl harg hb
      have ecast : ((1 + j : Nat) : Int) + 1 = ((1 + (j + 1) : Nat) : Int) := by
        push_cast
        ring
      simp only [Term.substitute, Term.rebind_free, Term.closedAt, ecast]
      exact ih arg d (j + 1) (by simpa [Term.closedAt] using hcl) harg
        (by simp only [Term.maxNest] at hb; omega)
  | Application f a ihf iha =>
      intro arg d j hcl harg hb
      have hmax1 := Nat.le_max_left f.maxNest a.maxNest
      have hmax2 := Nat.le_max_right f.maxNest a.maxNest
      simp only [Term.maxNest] at hb
      simp only [Term.closedAt, Bool.and_eq_true] at hcl
      simp only [Term.substitute, Term.rebind_free, Term.closedAt, Bool.and_eq_true]
      exact ⟨ihf arg d j hcl.1 harg (by omega), iha arg d j hcl.2 harg (by omega)⟩

theorem closedAt_reduceNormal_app_aux (f a : Term) (d : Nat)
    (hne : ∀ b, f ≠ .Lambda b)
    (hcf : ((f.reduceNormal).unwrap).closedAt d = true)
    (hca : ((a.reduceNormal).unwrap).closedAt d = true)
    (hca0 : a.closedAt d = true) :
    (((Term.Application f a).reduceNormal).unwrap).closedAt d = true := by
  rw [reduceNormal_app f a hne]
  cases hfr : f.reduceNormal with
  | PossiblyReducible t =>
      rw [hfr] at hcf
      simp only [EvalResult.unwrap] at hcf ⊢
      simp [Term.closedAt, hcf, hca0]
  | NormalForm head =>
      rw [hfr] at hcf
      simp only [EvalResult.unwrap] at hcf
      rw [unwrap_map]
      simp [Term.closedAt, hcf, hca]

theorem closedAt_reduceNormal (t : Term) :
    ∀ d : Nat, t.closedAt d = true → d + 2 * t.maxNest + 2 < 4294967296 →
      ((t.reduceNormal).unwrap).closedAt d = true := by
  induction t with
  | Variable name =>
      intro d hcl _
      simpa [Term.reduceNormal, EvalResult.unwrap] using hcl
  | Lambda body ih =>
      intro d hcl hb
      simp only [Term.reduceNormal, unwrap_map, Term.closedAt]
      exact ih (d + 1) (by simpa [Term.closedAt] using hcl)
        (by simp only [Term.maxNest] at hb; omega)
  | Application f a ihf iha =>
      intro d hcl hb
      simp only [Term.closedAt, Bool.and_eq_true] at hcl
      cases f with
      | Lambda b =>
          have hmax1 := Nat.le_max_left (b.maxNest + 1) a.maxNest
          have hmax2 := Nat.le_max_right (b.maxNest + 1) a.maxNest
          simp only [Term.maxNest] at hb
          have hbody : b.closedAt (d + 1 + 0) = true := by
            simpa [Term.closedAt] using hcl.1
          have := substitute_rebind_closed b a d 0 hbody hcl.2 (by omega)
          simpa [Term.reduceNormal, EvalResult.unwrap] using this
      | Variable n =>
          have e1 : (Term.Application (Term.Variable n) a).maxNest
              = max (Term.Variable n).maxNest a.maxNest := rfl
          rw [e1] at hb
          have hmax1 := Nat.le_max_left (Term.Variable n).maxNest a.maxNest
          have hmax2 := Nat.le_max_right (Term.Variable n).maxNest a.maxNest
          exact closedAt_reduceNormal_app_aux _ a d (fun b => Term.noConfusion)
            (ihf d hcl.1 (by omega)) (iha d hcl.2 (by omega)) hcl.2
      | Application f1 f2 =>
          have e1 : (Term.Application (Term.Application f1 f2) a).maxNest
              = max (Term.Application f1 f2).maxNest a.maxNest := rfl
          rw [e1] at hb
          have hmax1 := Nat.le_max_left (Term.Application f1 f2).maxNest a.maxNest
          have hmax2 := Nat.le_max_right (Term.Application f1 f2).maxNest a.maxNest
          exact closedAt_reduceNormal_app_aux _ a d (fun b => Term.noConfusion)
            (ihf d hcl.1 (by omega)) (iha d hcl.2 (by omega)) hcl.2

/-- C3: for every closed term t (no free string-named variables, no bound
index exceeding its enclosing lambda depth), the term carried by the result
of one NormalOrder reduction step on t is again closed, so every
intermediate term of an evaluation of a closed term is closed.  The size
precondition keeps every u32 index computation below 2^32. -/
theorem c3_reduce_preserves_closed (t : Term) (e : EvalResult)
    (hred : t.reduce .NormalOrder = some e)
    (hcl : t.closedAt 0 = true)
    (hsize : 2 * t.maxNest + 2 < 4294967296) :
    (e.unwrap).closedAt 0 = true := by
  have he : e = t.reduceNormal := by
    simp only [Term.reduce, Option.some.injEq] at hred
    exact hred.symm
  subst he
  exact closedAt_reduceNormal t 0 hcl (by omega)

theorem c3_reduce_preserves_closed_witness :
    ((Term.Application (.Lambda (.Variable (.Bound 1)))
        (.Lambda (.Variable (.Bound 1)))).closedAt 0 = true)
    ∧ ((EvalResult.PossiblyReducible (Term.Lambda (.Variable (.Bound 1)))).unwrap.closedAt 0
        = true) :=
  ⟨by decide,
    c3_reduce_preserves_closed
      (Term.Application (.Lambda (.Variable (.Bound 1))) (.Lambda (.Variable (.Bound 1))))
      (.PossiblyReducible (Term.Lambda (.Variable (.Bound 1))))
      (by decide) (by decide) (by decide)⟩

/-- From `runtime.rs`, `enum BindMode`. -/
inductive BindMode where
  | CaptureAndReduce
  | CaptureOnly
deriving DecidableEq

/-- From `runtime.rs`, `struct Binding`. -/
structure Binding where
  identifier : String
  value : Term
  mode : BindMode
deriving DecidableEq

/-- From `runtime.rs`, `enum EvaluationError`. -/
inductive EvaluationError where
  | TooManyReductions
  | NonTerminating
  | RecursiveBinding
  | ParseError
deriving DecidableEq

/-- From `runtime.rs`, `type EvaluationResult<T> = Result<T, EvaluationError>`. -/
inductive EvaluationResult (α : Type) where
  | ok (val : α)
  | error (err : EvaluationError)
deriving DecidableEq

/-- HashMap lookup of `HashSymbolTable` (first matching key). -/
def stGet (symbols : List (String × Term)) (identifier : String) : Option Term :=
  (symbols.find? (fun p => p.1 == identifier)).map (fun p => p.2)

/-- HashMap insertion of `HashSymbolTable`: replaces any entry with the
same identifier. -/
def stInsert (symbols : List (String × Term)) (identifier : String) (value : Term) :
    List (String × Term) :=
  (identifier, value) :: symbols.filter (fun p => !(p.1 == identifier))

/-- From `lambda.rs`, `Term::bind_free_from`. -/
def Term.bind_free_from : Term → List (String × Term) → Term
  | .Variable (.Free identifier), symbols =>
      match stGet symbols identifier with
      | some t => t
      | none => .Variable (.Free identifier)
  | .Variable (.Bound k), _ => .Variable (.Bound k)
  | .Lambda body, symbols => .Lambda (body.bind_free_from symbols)
  | .Application applicand argument, symbols =>
      .Application (applicand.bind_free_from symbols) (argument.bind_free_from symbols)

/-- Modelled from the spec: `Term::is_free_in` is called by
`Environment::add_binding` but its definition is not present in the
source tree; the spec states it is true iff some `Variable(Free(name))`
occurs anywhere in the term. -/
def Term.is_free_in : Term → String → Bool
  | .Variable (.Free n), name => n == name
  | .Variable (.Bound _), _ => false
  | .Lambda body, name => body.is_free_in name
  | .Application applicand argument, name =>
      applicand.is_free_in name || argument.is_free_in name

/-- From `runtime.rs`, `struct Environment` over the hash-map symbol table. -/
structure Environment where
  symbols : List (String × Term)
  max_reductions : Nat
  echo_enabled : Bool
deriving DecidableEq

/-- The loop of `Environment::evaluate`: the counter check
`reduction_count > max_reductions` is modelled by a fuel of
`max_reductions + 1 - reduction_count`, so the loop from count 0 starts
with fuel `max_reductions + 1` and errors exactly when the count would
first exceed the budget. -/
def evalLoop : Nat → Term → List Term → EvaluationResult Term
  | 0, _, _ => .error .TooManyReductions
  | fuel + 1, term, seen_terms =>
    match term.reduceNormal with
    | .NormalForm r => .ok r
    | .PossiblyReducible r =>
        if r ∈ seen_terms then .error .NonTerminating
        else evalLoop fuel r (r :: seen_terms)

/-- From `runtime.rs`, `Environment::evaluate`. -/
def Environment.evaluate (env : Environment) (term : Term) : EvaluationResult Term :=
  evalLoop (env.max_reductions + 1) (term.bind_free_from env.symbols) []

/-- `evalLoop` instrumented with the number of reduction steps performed. -/
def evalLoopC : Nat → Term → List Term → EvaluationResult Term × Nat
  | 0, _, _ => (.error .TooManyReductions, 0)
  | fuel + 1, term, seen_terms =>
    match term.reduceNormal with
    | .NormalForm r => (.ok r, 0)
    | .PossiblyReducible r =>
        if r ∈ seen_terms then (.error .NonTerminating, 0)
        else
          let p := evalLoopC fuel r (r :: seen_terms)
          (p.1, p.2 + 1)

/-- `evalLoop` with the environment threaded explicitly through every
return site, mirroring that `evaluate` takes `&self` and can return from
any branch without touching the environment. -/
def evalLoopS (env : Environment) : Nat → Term → List Term → EvaluationResult Term × Environment
  | 0, _, _ => (.error .TooManyReductions, env)
  | fuel + 1, term, seen_terms =>
    match term.reduceNormal with
    | .NormalForm r => (.ok r, env)
    | .PossiblyReducible r =>
        if r ∈ seen_terms then (.error .NonTerminating, env)
        else evalLoopS env fuel r (r :: seen_terms)

/-- `Environment::evaluate` with the environment threaded explicitly. -/
def Environment.evaluateS (env : Environment) (term : Term) :
    EvaluationResult Term × Environment :=
  evalLoopS env (env.max_reductions + 1) (term.bind_free_from env.symbols) []

/-- From `runtime.rs`, `Environment::add_binding`, with the mutation of
`self` made explicit: the only write to the environment is the final
insert, every earlier return leaves it untouched. -/
def Environment.add_binding (env : Environment) (b : Binding) :
    Environment × EvaluationResult Unit :=
  let value := b.value.bind_free_from env.symbols
  if value.is_free_in b.identifier then (env, .error .RecursiveBinding)
  else
    match (match b.mode with
           | .CaptureAndReduce => env.evaluate value
           | .CaptureOnly => .ok value) with
    | .error e => (env, .error e)
    | .ok v => ({ env with symbols := stInsert env.symbols b.identifier v }, .ok ())

theorem evalLoop_error (fuel : Nat) :
    ∀ (t : Term) (seen : List Term) (e : EvaluationError),
      evalLoop fuel t seen = .error e →
      e = .TooManyReductions ∨ e = .NonTerminating := by
  induction fuel with
  | zero =>
      intro t seen e h
      simp only [evalLoop, EvaluationResult.error.injEq] at h
      exact Or.inl h.symm
  | succ n ih =>
      intro t seen e h
      simp only [evalLoop] at h
      cases ht : t.reduceNormal with
      | NormalForm r =>
          rw [ht] at h
          simp at h
      | PossiblyReducible r =>
          rw [ht] at h
          by_cases hm : r ∈ seen
          · simp [hm] at h
            exact Or.inr h.symm
          · simp [hm] at h
            exact ih r (r :: seen) e h

theorem evalLoop_ok (fuel : Nat) :
    ∀ (t : Term) (seen : List Term) (r : Term),
      evalLoop fuel t seen = .ok r → r.reduceNormal = .NormalForm r := by
  induction fuel with
  | zero =>
      intro t seen r h
      exact EvaluationResult.noConfusion h
  | succ n ih =>
      intro t seen r h
      simp only [evalLoop] at h
      cases ht : t.reduceNormal with
      | NormalForm r0 =>
          rw [ht] at h
          simp at h
          subst h
          have he : r0 = t := reduceNormal_eq_self ht
          subst he
          exact ht
      | PossiblyReducible r0 =>
          rw [ht] at h
          by_cases hm : r0 ∈ seen
          · simp [hm] at h
          · simp [hm] at h
            exact ih r0 (r0 :: seen) r h

theorem evalLoopC_fst (fuel : Nat) :
    ∀ (t : Term) (seen : List Term), (evalLoopC fuel t seen).1 = evalLoop fuel t seen := by
  induction fuel with
  | zero => intro t seen; rfl
  | succ n ih =>
      intro t seen
      simp only [evalLoopC, evalLoop]
      cases ht : t.reduceNormal with
      | NormalForm r => rfl
      | PossiblyReducible r =>
          by_cases hm : r ∈ seen
          · simp [hm]
          · simp [hm, ih]

theorem evalLoopC_le (fuel : Nat) :
    ∀ (t : Term) (seen : List Term), (evalLoopC fuel t seen).2 ≤ fuel := by
  induction fuel with
  | zero => intro t seen; exact Nat.le_refl 0
  | succ n ih =>
      intro t seen
      simp only [evalLoopC]
      cases ht : t.reduceNormal with
      | NormalForm r => exact Nat.zero_le _
      | PossiblyReducible r =>
          by_cases hm : r ∈ seen
          · simp [hm]
          · simp only [hm, if_false, if_neg]
            exact Nat.succ_le_succ (ih r (r :: seen))

theorem evalLoopS_eq (env : Environment) (fuel : Nat) :
    ∀ (t : Term) (seen : List Term),
      evalLoopS env fuel t seen = (evalLoop fuel t seen, env) := by
  induction fuel with
  | zero => intro t seen; rfl
  | succ n ih =>
      intro t seen
      simp only [evalLoopS, evalLoop]
      cases ht : t.reduceNormal with
      | NormalForm r => rfl
      | PossiblyReducible r =>
          by_cases hm : r ∈ seen
          · simp [hm]
          · simp [hm, ih]

/-- C4: evaluate is a total function (the loop is bounded by the budget),
it performs at most max_reductions + 1 reduction steps, and it returns
either Ok with a normal form of the pre-bound term, or TooManyReductions,
or NonTerminating. -/
theorem c4_evaluate_budget (env : Environment) (t : Term) :
    ((evalLoopC (env.max_reductions + 1) (t.bind_free_from env.symbols) []).2
        ≤ env.max_reductions + 1)
    ∧ (∀ r, env.evaluate t = .ok r → r.reduceNormal = .NormalForm r)
    ∧ (∀ e, env.evaluate t = .error e →
        e = .TooManyReductions ∨ e = .NonTerminating) := by
  refine ⟨evalLoopC_le _ _ _, fun r h => ?_, fun e h => ?_⟩
  · exact evalLoop_ok _ _ _ _ (by simpa [Environment.evaluate] using h)
  · exact evalLoop_error _ _ _ _ (by simpa [Environment.evaluate] using h)

theorem c4_evaluate_budget_witness :
    ((evalLoopC ((Environment.mk [] 5000 true).max_reductions + 1)
        ((Term.Application (.Lambda (.Variable (.Bound 1)))
            (.Lambda (.Variable (.Bound 1)))).bind_free_from
          (Environment.mk [] 5000 true).symbols) []).2
      ≤ (Environment.mk [] 5000 true).max_reductions + 1)
    ∧ (Term.Lambda (.Variable (.Bound 1))).reduceNormal
        = .NormalForm (Term.Lambda (.Variable (.Bound 1))) :=
  ⟨(c4_evaluate_budget (Environment.mk [] 5000 true)
      (Term.Application (.Lambda (.Variable (.Bound 1)))
        (.Lambda (.Variable (.Bound 1))))).1,
   (c4_evaluate_budget (Environment.mk [] 5000 true)
      (Term.Application (.Lambda (.Variable (.Bound 1)))
        (.Lambda (.Variable (.Bound 1))))).2.1
      (Term.Lambda (.Variable (.Bound 1))) (by decide)⟩

/-- C5: if add_binding returns any error, the environment afterwards is
exactly as it was before the call (so lookups of the identifier are
unchanged and no insertion happened). -/
theorem c5_add_binding_atomic (env : Environment) (b : Binding) (e : EvaluationError)
    (h : (env.add_binding b).2 = .error e) :
    (env.add_binding b).1 = env := by
  by_cases hf : (b.value.bind_free_from env.symbols).is_free_in b.identifier = true
  · have heq : env.add_binding b = (env, .error .RecursiveBinding) := by
      simp [Environment.add_binding, hf]
    rw [heq]
  · cases hm : b.mode with
    | CaptureAndReduce =>
        cases hev : env.evaluate (b.value.bind_free_from env.symbols) with
        | error e2 =>
            have heq : env.add_binding b = (env, .error e2) := by
              simp [Environment.add_binding, hf, hm, hev]
            rw [heq]
        | ok v =>
            have heq : env.add_binding b =
                ({ env with symbols := stInsert env.symbols b.identifier v }, .ok ()) := by
              simp [Environment.add_binding, hf, hm, hev]
            rw [heq] at h
            exact EvaluationResult.noConfusion h
    | CaptureOnly =>
        have heq : env.add_binding b =
            ({ env with
                symbols := stInsert env.symbols b.identifier
                  (b.value.bind_free_from env.symbols) }, .ok ()) := by
          simp [Environment.add_binding, hf, hm]
        rw [heq] at h
        exact EvaluationResult.noConfusion h

theorem c5_add_binding_atomic_witness :
    ((Environment.mk [] 5000 true).add_binding
        (Binding.mk "r" (.Variable (.Free "r")) .CaptureOnly)).2
      = .error .RecursiveBinding
    ∧ ((Environment.mk [] 5000 true).add_binding
        (Binding.mk "r" (.Variable (.Free "r")) .CaptureOnly)).1
      = Environment.mk [] 5000 true :=
  ⟨by decide,
   c5_add_binding_atomic (Environment.mk [] 5000 true)
      (Binding.mk "r" (.Variable (.Free "r")) .CaptureOnly)
      .RecursiveBinding (by decide)⟩

/-- C6: add_binding returns RecursiveBinding, inserting nothing, exactly
when the value obtained after the pre-binding step still contains a free
occurrence of the binding's identifier; otherwise the binding does not
fail with RecursiveBinding. -/
theorem c6_recursive_binding_iff (env : Environment) (b : Binding) :
    ((env.add_binding b).2 = .error .RecursiveBinding ↔
      (b.value.bind_free_from env.symbols).is_free_in b.identifier = true)
    ∧ ((env.add_binding b).2 = .error .RecursiveBinding → (env.add_binding b).1 = env) := by
  by_cases hf : (b.value.bind_free_from env.symbols).is_free_in b.identifier = true
  · have heq : env.add_binding b = (env, .error .RecursiveBinding) := by
      simp [Environment.add_binding, hf]
    rw [heq]
    exact ⟨⟨fun _ => hf, fun _ => rfl⟩, fun _ => rfl⟩
  · have hne : (env.add_binding b).2 ≠ .error .RecursiveBinding := by
      cases hm : b.mode with
      | CaptureAndReduce =>
          cases hev : env.evaluate (b.value.bind_free_from env.symbols) with
          | error e2 =>
              have heq : env.add_binding b = (env, .error e2) := by
                simp [Environment.add_binding, hf, hm, hev]
              rw [heq]
              intro hcontra
              have he2 : e2 = .RecursiveBinding := by
                injection hcontra
              have hcases := evalLoop_error _ _ _ _
                (by simpa [Environment.evaluate] using hev)
              rw [he2] at hcases
              rcases hcases with h1 | h1 <;> exact EvaluationError.noConfusion h1
          | ok v =>
              have heq : env.add_binding b =
                  ({ env with symbols := stInsert env.symbols b.identifier v }, .ok ()) := by
                simp [Environment.add_binding, hf, hm, hev]
              rw [heq]
              intro hcontra
              exact EvaluationResult.noConfusion hcontra
      | CaptureOnly =>
          have heq : env.add_binding b =
              ({ env with
                  symbols := stInsert env.symbols b.identifier
                    (b.value.bind_free_from env.symbols) }, .ok ()) := by
            simp [Environment.add_binding, hf, hm]
          rw [heq]
          intro hcontra
          exact EvaluationResult.noConfusion hcontra
    exact ⟨⟨fun h => absurd h hne, fun hfree => absurd hfree hf⟩, fun h => absurd h hne⟩

theorem c6_recursive_binding_iff_witness :
    ((Environment.mk [] 5000 true).add_binding
        (Binding.mk "x" (.Application (.Variable (.Free "x")) (.Variable (.Free "y")))
          .CaptureOnly)).2
      = .error .RecursiveBinding :=
  (c6_recursive_binding_iff (Environment.mk [] 5000 true)
      (Binding.mk "x" (.Application (.Variable (.Free "x")) (.Variable (.Free "y")))
        .CaptureOnly)).1.mpr (by decide)

/-- C10: evaluate takes the environment by shared reference and leaves it
completely unchanged - the threaded-state rendering returns the input
environment (symbol table, max_reductions and echo_enabled included)
alongside the same result evaluate computes, whether Ok or an error. -/
theorem c10_evaluate_frame (env : Environment) (t : Term) :
    (env.evaluateS t).2 = env ∧ (env.evaluateS t).1 = env.evaluate t := by
  have h := evalLoopS_eq env (env.max_reductions + 1) (t.bind_free_from env.symbols) []
  unfold Environment.evaluateS Environment.evaluate
  rw [h]
  exact ⟨rfl, rfl⟩

/-- From `lexer.rs`, `enum Token`. -/
inductive Token where
  | ParenOpen
  | ParenClose
  | Lambda
  | Dot
  | Identifier (name : String)
  | Let
  | DefineReduce
  | DefineSuspend
deriving DecidableEq

/-- From `lexer.rs`, `impl Display for Token`. -/
def Token.render : Token → String
  | .ParenOpen => "("
  | .ParenClose => ")"
  | .Lambda => "λ"
  | .Dot => "."
  | .Identifier name => name
  | .Let => "let"
  | .DefineReduce => "="
  | .DefineSuspend => ":="

/-- From `lexer.rs`, `struct ParseTokenError(pub String)`. -/
structure ParseTokenError where
  message : String
deriving DecidableEq

/-- Result of `Token::parse_all`. -/
inductive TokensResult where
  | ok (tokens : List Token)
  | error (err : ParseTokenError)
deriving DecidableEq

/-- The identifier munch of `Token::parse_all`: the maximal leading run of
ASCII alphanumerics, and the remainder. -/
def takeWord : List Char → List Char × List Char
  | [] => ([], [])
  | c :: rest =>
      if c.isAlphanum then ((c :: (takeWord rest).1), (takeWord rest).2)
      else ([], c :: rest)

/-- Pushing one lexed token onto the result of lexing the remainder. -/
def consToken (t : Token) : TokensResult → TokensResult
  | .ok ts => .ok (t :: ts)
  | .error e => .error e

/-- From `lexer.rs`, `Token::parse_all`, over the character list, with an
explicit fuel (one unit per loop iteration; every iteration consumes at
least one character, so fuel equal to the input length suffices and the
fuel-exhausted branch is unreachable).  In the `:` arm the error message
interpolates `c`, which at that point is the colon itself, not the
character that followed - exactly as the source does.  Unicode
whitespace is approximated by ASCII whitespace. -/
def lexAllF : Nat → List Char → TokensResult
  | _, [] => .ok []
  | 0, _ :: _ => .error ⟨"out of fuel"⟩
  | fuel + 1, c :: rest =>
      if c.isWhitespace then lexAllF fuel rest
      else if c = '(' then consToken .ParenOpen (lexAllF fuel rest)
      else if c = ')' then consToken .ParenClose (lexAllF fuel rest)
      else if c = 'λ' ∨ c = 'L' then consToken .Lambda (lexAllF fuel rest)
      else if c = '.' then consToken .Dot (lexAllF fuel rest)
      else if c = '=' then consToken .DefineReduce (lexAllF fuel rest)
      else if c = ':' then
        match rest with
        | '=' :: rest2 => consToken .DefineSuspend (lexAllF fuel rest2)
        | _ => .error ⟨"Invalid token: :".push c⟩
      else if c.isAlphanum then
        if String.mk (c :: (takeWord rest).1) = "let" then
          consToken .Let (lexAllF fuel (takeWord rest).2)
        else
          consToken (.Identifier (String.mk (c :: (takeWord rest).1))) (lexAllF fuel (takeWord rest).2)
      else .error ⟨"Invalid token: ".push c⟩

/-- From `lexer.rs`, `Token::parse_all`. -/
def Token.parse_all (s : String) : TokensResult :=
  lexAllF s.data.length s.data

theorem consToken_error (t : Token) (r : TokensResult) (e : ParseTokenError) :
    consToken t r = .error e ↔ r = .error e := by
  cases r <;> simp [consToken]

theorem consToken_ok_inv {t : Token} {r : TokensResult} {ts : List Token}
    (h : consToken t r = .ok ts) : ∃ ts2, r = .ok ts2 ∧ ts = t :: ts2 := by
  cases r with
  | ok ts2 =>
      injection h with h'
      exact ⟨ts2, rfl, h'.symm⟩
  | error e => exact TokensResult.noConfusion h

theorem takeWord_append (cs : List Char) : (takeWord cs).1 ++ (takeWord cs).2 = cs := by
  induction cs with
  | nil => rfl
  | cons c rest ih =>
      by_cases h : c.isAlphanum <;> simp [takeWord, h, ih]

theorem takeWord_snd_length (cs : List Char) : (takeWord cs).2.length ≤ cs.length := by
  induction cs with
  | nil => exact Nat.le_refl 0
  | cons c rest ih =>
      by_cases h : c.isAlphanum <;> simp [takeWord, h]
      exact Nat.le_succ_of_le ih

theorem takeWord_fst_alnum (cs : List Char) :
    ∀ c ∈ (takeWord cs).1, c.isAlphanum = true := by
  induction cs with
  | nil => simp [takeWord]
  | cons c rest ih =>
      by_cases h : c.isAlphanum
      · intro x hx
        simp only [takeWord, h, if_true] at hx
        rcases List.mem_cons.mp hx with rfl | hx2
        · exact h
        · exact ih x hx2
      · simp [takeWord, h]

theorem lexAllF_congr (f1 : Nat) :
    ∀ (f2 : Nat) (cs : List Char), cs.length ≤ f1 → cs.length ≤ f2 →
      lexAllF f1 cs = lexAllF f2 cs := by
  induction f1 with
  | zero =>
      intro f2 cs h1 h2
      cases cs with
      | nil => cases f2 <;> rfl
      | cons c rest => simp at h1
  | succ n ih =>
      intro f2 cs h1 h2
      cases cs with
      | nil => cases f2 <;> rfl
      | cons c rest =>
          cases f2 with
          | zero => simp at h2
          | succ m =>
              have hr1 : rest.length ≤ n := by simp at h1; omega
              have hr2 : rest.length ≤ m := by simp at h2; omega
              have hw1 := takeWord_snd_length rest
              simp only [lexAllF]
              by_cases hws : c.isWhitespace
              · simp only [hws, if_true]
                exact ih m rest hr1 hr2
              · simp only [hws, if_false, Bool.false_eq_true]
                by_cases hc1 : c = '('
                · simp only [hc1, if_true]
                  rw [ih m rest hr1 hr2]
                · simp only [hc1, if_false]
                  by_cases hc2 : c = ')'
                  · simp only [hc2, if_true]
                    rw [ih m rest hr1 hr2]
                  · simp only [hc2, if_false]
                    by_cases hc3 : c = 'λ' ∨ c = 'L'
                    · simp only [hc3, if_true]
                      rw [ih m rest hr1 hr2]
                    · simp only [hc3, if_false]
                      by_cases hc4 : c = '.'
                      · simp only [hc4, if_true]
                        rw [ih m rest hr1 hr2]
                      · simp only [hc4, if_false]
                        by_cases hc5 : c = '='
                        · simp only [hc5, if_true]
                          rw [ih m rest hr1 hr2]
                        · simp only [hc5, if_false]
                          by_cases hc6 : c = ':'
                          · simp only [hc6, if_true]
                            cases rest with
                            | nil => rfl
                            | cons c2 rest2 =>
                                by_cases hc7 : c2 = '='
                                · subst hc7
                                  have : rest2.length ≤ n := by simp at hr1; omega
                                  have h2' : rest2.length ≤ m := by simp at hr2; omega
                                  simp only []
                                  rw [ih m rest2 this h2']
                                · have hmatch : ∀ fl, (match c2 :: rest2 with
                                      | '=' :: rest2 => consToken .DefineSuspend (lexAllF fl rest2)
                                      | _ => .error ⟨"Invalid token: :".push ':'⟩)
                                      = (.error ⟨"Invalid token: :".push ':'⟩ : TokensResult) := by
                                    intro fl
                                    split
                                    · next rest3 heq =>
                                        injection heq with heq1 heq2
                                        exact absurd heq1 hc7
                                    · rfl
                                  rw [hmatch n, hmatch m]
                          · simp only [hc6, if_false]
                            by_cases hc8 : c.isAlphanum
                            · simp only [hc8, if_true]
                              have ht1 : (takeWord rest).2.length ≤ n := le_trans hw1 hr1
                              have ht2 : (takeWord rest).2.length ≤ m := le_trans hw1 hr2
                              by_cases hlet : String.mk (c :: (takeWord rest).1) = "let"
                              · simp only [hlet, if_true]
                                rw [ih m _ ht1 ht2]
                              · simp only [hlet, if_false]
                                rw [ih m _ ht1 ht2]
                            · simp only [hc8, if_false, Bool.false_eq_true]

/-- A character on which the lexer's catch-all arm fires: not whitespace,
not one of the recognised single characters, and not ASCII alphanumeric -
exactly the characters the lexer rejects as invalid. -/
def invalidChar (c : Char) : Bool :=
  !c.isWhitespace && !(c == '(') && !(c == ')') && !(c == 'λ') && !(c == 'L')
    && !(c == '.') && !(c == '=') && !(c == ':') && !c.isAlphanum

theorem lexAllF_error_carries (fuel : Nat) :
    ∀ (cs : List Char) (e : ParseTokenError),
      cs.length ≤ fuel → lexAllF fuel cs = .error e →
      (e = ⟨"Invalid token: ::"⟩
        ∧ ∃ pre suf, cs = pre ++ ':' :: suf ∧ ∀ c2 r, suf = c2 :: r → ¬(c2 = '='))
      ∨ (∃ c, c ∈ cs ∧ invalidChar c = true ∧ e = ⟨"Invalid token: ".push c⟩) := by
  induction fuel with
  | zero =>
      intro cs e hlen h
      cases cs with
      | nil => exact absurd h (by simp [lexAllF])
      | cons c rest => simp at hlen
  | succ n ih =>
      intro cs e hlen h
      cases cs with
      | nil => exact absurd h (by simp [lexAllF])
      | cons c rest =>
          have hr1 : rest.length ≤ n := by simp at hlen; omega
          have step : ∀ (p0 r0 : List Char), c :: rest = p0 ++ r0 → r0.length ≤ n →
              lexAllF n r0 = .error e →
              (e = ⟨"Invalid token: ::"⟩
                ∧ ∃ pre suf, c :: rest = pre ++ ':' :: suf
                    ∧ ∀ c2 r, suf = c2 :: r → ¬(c2 = '='))
              ∨ (∃ x, x ∈ c :: rest ∧ invalidChar x = true
                  ∧ e = ⟨"Invalid token: ".push x⟩) := by
            intro p0 r0 hsplit hlen0 h0
            rcases ih r0 e hlen0 h0 with ⟨he, pre, suf, hdec, hsuf⟩ | ⟨x, hx, hinv, he⟩
            · refine Or.inl ⟨he, p0 ++ pre, suf, ?_, hsuf⟩
              rw [hsplit, hdec, List.append_assoc]
            · refine Or.inr ⟨x, ?_, hinv, he⟩
              rw [hsplit]
              exact List.mem_append_right _ hx
          simp only [lexAllF] at h
          by_cases hws : c.isWhitespace
          · simp only [hws, if_true] at h
            exact step [c] rest rfl hr1 h
          · simp only [hws, if_false, Bool.false_eq_true] at h
            by_cases hc1 : c = '('
            · simp only [hc1, if_true] at h
              exact step [c] rest rfl hr1 ((consToken_error _ _ _).mp h)
            · simp only [hc1, if_false] at h
              by_cases hc2 : c = ')'
              · simp only [hc2, if_true] at h
                exact step [c] rest rfl hr1 ((consToken_error _ _ _).mp h)
              · simp only [hc2, if_false] at h
                by_cases hc3 : c = 'λ' ∨ c = 'L'
                · simp only [hc3, if_true] at h
                  exact step [c] rest rfl hr1 ((consToken_error _ _ _).mp h)
                · simp only [hc3, if_false] at h
                  by_cases hc4 : c = '.'
                  · simp only [hc4, if_true] at h
                    exact step [c] rest rfl hr1 ((consToken_error _ _ _).mp h)
                  · simp only [hc4, if_false] at h
                    by_cases hc5 : c = '='
                    · simp only [hc5, if_true] at h
                      exact step [c] rest rfl hr1 ((consToken_error _ _ _).mp h)
                    · simp only [hc5, if_false] at h
                      by_cases hc6 : c = ':'
                      · simp only [hc6, if_true] at h
                        subst hc6
                        split at h
                        · next rest2 =>
                            have hr2 : rest2.length ≤ n := by simp at hr1; omega
                            exact step [':', '='] rest2 rfl hr2
                              ((consToken_error _ _ _).mp h)
                        · next hne =>
                            injection h with h'
                            refine Or.inl ⟨h'.symm.trans (by decide), [], rest, rfl, ?_⟩
                            intro c2 r hsr he2
                            exact hne r (by rw [hsr, he2])
                      · simp only [hc6, if_false] at h
                        by_cases hc8 : c.isAlphanum
                        · simp only [hc8, if_true] at h
                          have hrec : lexAllF n (takeWord rest).2 = .error e := by
                            by_cases hlet : String.mk (c :: (takeWord rest).1) = "let"
                            · simp only [hlet, if_true] at h
                              exact (consToken_error _ _ _).mp h
                            · simp only [hlet, if_false] at h
                              exact (consToken_error _ _ _).mp h
                          have hsplit : c :: rest
                              = (c :: (takeWord rest).1) ++ (takeWord rest).2 := by
                            rw [List.cons_append, takeWord_append]
                          exact step (c :: (takeWord rest).1) (takeWord rest).2 hsplit
                            (le_trans (takeWord_snd_length rest) hr1) hrec
                        · simp only [hc8, if_false, Bool.false_eq_true] at h
                          injection h with h'
                          have hw0 : c.isWhitespace = false := by simpa using hws
                          have ha0 : c.isAlphanum = false := by simpa using hc8
                          obtain ⟨hl1, hl2⟩ := not_or.mp hc3
                          have b1 : (c == '(') = false := beq_eq_false_iff_ne.mpr hc1
                          have b2 : (c == ')') = false := beq_eq_false_iff_ne.mpr hc2
                          have b3 : (c == 'λ') = false := beq_eq_false_iff_ne.mpr hl1
                          have b4 : (c == 'L') = false := beq_eq_false_iff_ne.mpr hl2
                          have b5 : (c == '.') = false := beq_eq_false_iff_ne.mpr hc4
                          have b6 : (c == '=') = false := beq_eq_false_iff_ne.mpr hc5
                          have b7 : (c == ':') = false := beq_eq_false_iff_ne.mpr hc6
                          refine Or.inr ⟨c, List.mem_cons_self _ _, ?_, h'.symm⟩
                          simp [invalidChar, hw0, ha0, b1, b2, b3, b4, b5, b6, b7]

/-- C9 counterexample: on the input ":b" (a ':' followed by 'b'), the
lexer's diagnostic is "Invalid token: ::" - it repeats the colon and does
not carry the character 'b' that actually followed it. -/
theorem c9_colon_diag_counterexample :
    Token.parse_all ":b" = .error ⟨"Invalid token: ::"⟩
    ∧ ('b' ∉ ("Invalid token: ::").data) := by
  exact ⟨by decide, by decide⟩

/-- C9 (amended): on every input on which lexing fails, either the failure
is a ':' not followed by '=' present in the input and the diagnostic is the
fixed message "Invalid token: ::" (it carries the colon, never the
character that followed), or the diagnostic carries the offending invalid
character itself - a character of the input that is genuinely invalid
(not whitespace, not a recognised single character, not alphanumeric). -/
theorem c9_lex_error_diagnostic (s : String) (e : ParseTokenError)
    (h : Token.parse_all s = .error e) :
    (e = ⟨"Invalid token: ::"⟩
      ∧ ∃ pre suf, s.data = pre ++ ':' :: suf ∧ ∀ c2 r, suf = c2 :: r → ¬(c2 = '='))
    ∨ (∃ c, c ∈ s.data ∧ invalidChar c = true ∧ e = ⟨"Invalid token: ".push c⟩) :=
  lexAllF_error_carries s.data.length s.data e (Nat.le_refl _) h

theorem c9_lex_error_diagnostic_witness :
    ((⟨"Invalid token: ["⟩ : ParseTokenError) = ⟨"Invalid token: ::"⟩
      ∧ ∃ pre suf, "[".data = pre ++ ':' :: suf ∧ ∀ c2 r, suf = c2 :: r → ¬(c2 = '='))
    ∨ (∃ c, c ∈ "[".data ∧ invalidChar c = true
        ∧ (⟨"Invalid token: ["⟩ : ParseTokenError) = ⟨"Invalid token: ".push c⟩) :=
  c9_lex_error_diagnostic "[" ⟨"Invalid token: ["⟩ (by decide)

/-- Shape of every token the lexer can emit: identifiers are nonempty
ASCII-alphanumeric words other than "let" that do not start with 'L'
(a leading 'L' lexes as a Lambda token instead). -/
def TokenWF : Token → Prop
  | .Identifier n => n ≠ "let" ∧ n.data ≠ []
      ∧ (∀ c ∈ n.data, c.isAlphanum = true) ∧ n.data.head? ≠ some 'L'
  | _ => True

theorem alnum_not_ws {c : Char} (h : c.isAlphanum = true) : c.isWhitespace = false := by
  by_contra hw
  rw [Bool.not_eq_false] at hw
  have hd : ((c = ' ' ∨ c = '\t') ∨ c = '\r') ∨ c = '\n' := by
    simpa [Char.isWhitespace] using hw
  rcases hd with ((h1 | h1) | h1) | h1 <;> (subst h1; exact absurd h (by decide))

theorem alnum_char_ne {c d : Char} (h : c.isAlphanum = true)
    (hd : d.isAlphanum = false) : ¬ (c = d) := by
  intro e
  rw [e, hd] at h
  exact Bool.noConfusion h

theorem lexAllF_ws_skip (fuel : Nat) (cs : List Char) :
    lexAllF (fuel + 1) (' ' :: cs) = lexAllF fuel cs := by
  have hws : (' ' : Char).isWhitespace = true := by decide
  simp [lexAllF, hws]

theorem takeWord_full (w rest : List Char) (hw : ∀ c ∈ w, c.isAlphanum = true)
    (hrest : ∀ c, rest.head? = some c → c.isAlphanum = false) :
    takeWord (w ++ rest) = (w, rest) := by
  induction w with
  | nil =>
      cases rest with
      | nil => rfl
      | cons c r =>
          have hc := hrest c rfl
          simp [takeWord, hc]
  | cons c w2 ih =>
      have hc : c.isAlphanum = true := hw c (List.mem_cons_self _ _)
      have ih2 := ih (fun x hx => hw x (List.mem_cons_of_mem _ hx))
      simp [takeWord, hc, ih2]

theorem lexAllF_wf (fuel : Nat) :
    ∀ (cs : List Char) (ts : List Token),
      lexAllF fuel cs = .ok ts → ∀ t ∈ ts, TokenWF t := by
  induction fuel with
  | zero =>
      intro cs ts h t ht
      cases cs with
      | nil =>
          simp only [lexAllF, TokensResult.ok.injEq] at h
          subst h
          simp at ht
      | cons c rest => exact absurd h (by simp [lexAllF])
  | succ n ih =>
      intro cs ts h t ht
      cases cs with
      | nil =>
          simp only [lexAllF, TokensResult.ok.injEq] at h
          subst h
          simp at ht
      | cons c rest =>
          simp only [lexAllF] at h
          by_cases hws : c.isWhitespace
          · simp only [hws, if_true] at h
            exact ih rest ts h t ht
          · simp only [hws, if_false, Bool.false_eq_true] at h
            by_cases hc1 : c = '('
            · simp only [hc1, if_true] at h
              obtain ⟨ts2, h2, rfl⟩ := consToken_ok_inv h
              rcases List.mem_cons.mp ht with rfl | hmem
              · trivial
              · exact ih rest ts2 h2 t hmem
            · simp only [hc1, if_false] at h
              by_cases hc2 : c = ')'
              · simp only [hc2, if_true] at h
                obtain ⟨ts2, h2, rfl⟩ := consToken_ok_inv h
                rcases List.mem_cons.mp ht with rfl | hmem
                · trivial
                · exact ih rest ts2 h2 t hmem
              · simp only [hc2, if_false] at h
                by_cases hc3 : c = 'λ' ∨ c = 'L'
                · simp only [hc3, if_true] at h
                  obtain ⟨ts2, h2, rfl⟩ := consToken_ok_inv h
                  rcases List.mem_cons.mp ht with rfl | hmem
                  · trivial
                  · exact ih rest ts2 h2 t hmem
                · simp only [hc3, if_false] at h
                  by_cases hc4 : c = '.'
                  · simp only [hc4, if_true] at h
                    obtain ⟨ts2, h2, rfl⟩ := consToken_ok_inv h
                    rcases List.mem_cons.mp ht with rfl | hmem
                    · trivial
                    · exact ih rest ts2 h2 t hmem
                  · simp only [hc4, if_false] at h
                    by_cases hc5 : c = '='
                    · simp only [hc5, if_true] at h
                      obtain ⟨ts2, h2, rfl⟩ := consToken_ok_inv h
                      rcases List.mem_cons.mp ht with rfl | hmem
                      · trivial
                      · exact ih rest ts2 h2 t hmem
                    · simp only [hc5, if_false] at h
                      by_cases hc6 : c = ':'
                      · simp only [hc6, if_true] at h
                        subst hc6
                        split at h
                        · next rest2 =>
                            obtain ⟨ts2, h2, rfl⟩ := consToken_ok_inv h
                            rcases List.mem_cons.mp ht with rfl | hmem
                            · trivial
                            · exact ih rest2 ts2 h2 t hmem
                        · next hne => exact absurd h (by simp)
                      · simp only [hc6, if_false] at h
                        by_cases hc8 : c.isAlphanum
                        · simp only [hc8, if_true] at h
                          by_cases hlet : String.mk (c :: (takeWord rest).1) = "let"
                          · simp only [hlet, if_true] at h
                            obtain ⟨ts2, h2, rfl⟩ := consToken_ok_inv h
                            rcases List.mem_cons.mp ht with rfl | hmem
                            · trivial
                            · exact ih _ ts2 h2 t hmem
                          · simp only [hlet, if_false] at h
                            obtain ⟨ts2, h2, rfl⟩ := consToken_ok_inv h
                            rcases List.mem_cons.mp ht with rfl | hmem
                            · refine ⟨hlet, by simp, ?_, ?_⟩
                              · intro x hx
                                rcases List.mem_cons.mp hx with rfl | hx2
                                · exact hc8
                                · exact takeWord_fst_alnum rest x hx2
                              · have : ¬ (c = 'L') := fun e => hc3 (Or.inr e)
                                simp only [List.head?]
                                intro hcontra
                                injection hcontra with hc'
                                exact this hc'
                            · exact ih _ ts2 h2 t hmem
                        · simp only [hc8, if_false, Bool.false_eq_true] at h
                          exact absurd h (by simp)

theorem lexAllF_render_cons (t : Token) (hwf : TokenWF t) (cs : List Char) :
    lexAllF (t.render.data ++ ' ' :: cs).length (t.render.data ++ ' ' :: cs)
      = consToken t (lexAllF cs.length cs) := by
  cases t with
  | ParenOpen => rfl
  | ParenClose => rfl
  | Lambda => rfl
  | Dot => rfl
  | DefineReduce => rfl
  | Let =>
      have h0 : lexAllF ("let".data ++ ' ' :: cs).length ("let".data ++ ' ' :: cs)
          = consToken .Let (lexAllF (cs.length + 2) cs) := rfl
      show lexAllF ("let".data ++ ' ' :: cs).length ("let".data ++ ' ' :: cs)
          = consToken .Let (lexAllF cs.length cs)
      rw [h0, lexAllF_congr (cs.length + 2) cs.length cs (by omega) (Nat.le_refl _)]
  | DefineSuspend =>
      have h0 : lexAllF (":=".data ++ ' ' :: cs).length (":=".data ++ ' ' :: cs)
          = consToken .DefineSuspend (lexAllF (cs.length + 1) cs) := rfl
      show lexAllF (":=".data ++ ' ' :: cs).length (":=".data ++ ' ' :: cs)
          = consToken .DefineSuspend (lexAllF cs.length cs)
      rw [h0, lexAllF_congr (cs.length + 1) cs.length cs (by omega) (Nat.le_refl _)]
  | Identifier nm =>
      obtain ⟨hlet, hnil, halnum, hheadL⟩ := hwf
      obtain ⟨l⟩ := nm
      cases l with
      | nil => exact absurd rfl hnil
      | cons c0 w =>
          have hc0 : c0.isAlphanum = true := halnum c0 (List.mem_cons_self _ _)
          have hwal : ∀ x ∈ w, x.isAlphanum = true :=
            fun x hx => halnum x (List.mem_cons_of_mem _ hx)
          have hcL : ¬ (c0 = 'L') := by
            intro e
            exact hheadL (by simp [e])
          have hws0 : c0.isWhitespace = false := alnum_not_ws hc0
          have hne1 : ¬ (c0 = '(') := alnum_char_ne hc0 (by decide)
          have hne2 : ¬ (c0 = ')') := alnum_char_ne hc0 (by decide)
          have hne3 : ¬ (c0 = '.') := alnum_char_ne hc0 (by decide)
          have hne4 : ¬ (c0 = '=') := alnum_char_ne hc0 (by decide)
          have hne5 : ¬ (c0 = ':') := alnum_char_ne hc0 (by decide)
          have hlam : ¬ (c0 = 'λ' ∨ c0 = 'L') := by
            rintro (e | e)
            · exact alnum_char_ne hc0 (by decide) e
            · exact hcL e
          have htw : takeWord (w ++ ' ' :: cs) = (w, ' ' :: cs) := by
            refine takeWord_full w (' ' :: cs) hwal ?_
            intro x hx
            injection hx with hx'
            subst hx'
            decide
          show lexAllF ((c0 :: w) ++ ' ' :: cs).length ((c0 :: w) ++ ' ' :: cs)
              = consToken (.Identifier (String.mk (c0 :: w))) (lexAllF cs.length cs)
          simp only [List.cons_append, List.length_cons]
          simp only [lexAllF]
          simp only [hws0, hne1, hne2, hne3, hne4, hne5, hlam, hc0, Bool.false_eq_true,
            if_false, if_true]
          rw [htw]
          rw [if_neg (by simpa using hlet)]
          congr 1
          have hlen2 : (w ++ ' ' :: cs).length = (w.length + cs.length) + 1 := by
            simp only [List.length_append, List.length_cons]
            omega
          rw [hlen2, lexAllF_ws_skip]
          exact lexAllF_congr (w.length + cs.length) cs.length cs (by omega) (Nat.le_refl _)

theorem lexAllF_render_last (t : Token) (hwf : TokenWF t) :
    lexAllF t.render.data.length t.render.data = .ok [t] := by
  cases t with
  | ParenOpen => rfl
  | ParenClose => rfl
  | Lambda => rfl
  | Dot => rfl
  | DefineReduce => rfl
  | Let => rfl
  | DefineSuspend => rfl
  | Identifier nm =>
      obtain ⟨hlet, hnil, halnum, hheadL⟩ := hwf
      obtain ⟨l⟩ := nm
      cases l with
      | nil => exact absurd rfl hnil
      | cons c0 w =>
          have hc0 : c0.isAlphanum = true := halnum c0 (List.mem_cons_self _ _)
          have hwal : ∀ x ∈ w, x.isAlphanum = true :=
            fun x hx => halnum x (List.mem_cons_of_mem _ hx)
          have hcL : ¬ (c0 = 'L') := by
            intro e
            exact hheadL (by simp [e])
          have hws0 : c0.isWhitespace = false := alnum_not_ws hc0
          have hne1 : ¬ (c0 = '(') := alnum_char_ne hc0 (by decide)
          have hne2 : ¬ (c0 = ')') := alnum_char_ne hc0 (by decide)
          have hne3 : ¬ (c0 = '.') := alnum_char_ne hc0 (by decide)
          have hne4 : ¬ (c0 = '=') := alnum_char_ne hc0 (by decide)
          have hne5 : ¬ (c0 = ':') := alnum_char_ne hc0 (by decide)
          have hlam : ¬ (c0 = 'λ' ∨ c0 = 'L') := by
            rintro (e | e)
            · exact alnum_char_ne hc0 (by decide) e
            · exact hcL e
          have htw : takeWord w = (w, []) := by
            have := takeWord_full w [] hwal (by intro x hx; simp at hx)
            rwa [List.append_nil] at this
          show lexAllF (c0 :: w).length (c0 :: w) = .ok [.Identifier (String.mk (c0 :: w))]
          simp only [List.length_cons]
          simp only [lexAllF]
          simp only [hws0, hne1, hne2, hne3, hne4, hne5, hlam, hc0, Bool.false_eq_true,
            if_false, if_true]
          rw [htw]
          rw [if_neg (by simpa using hlet)]
          simp only [lexAllF, consToken]

/-- Rendering a token sequence joined by single spaces, as in the
round-trip property. -/
def renderTokens : List Token → String
  | [] => ""
  | [t] => t.render
  | t :: ts => t.render ++ " " ++ renderTokens ts

theorem string_data_append (a b : String) : (a ++ b).data = a.data ++ b.data := by
  cases a
  cases b
  rfl

theorem lex_renderTokens (ts : List Token) (h : ∀ t ∈ ts, TokenWF t) :
    lexAllF (renderTokens ts).data.length (renderTokens ts).data = .ok ts := by
  induction ts with
  | nil => rfl
  | cons t ts2 ih =>
      cases ts2 with
      | nil => exact lexAllF_render_last t (h t (List.mem_cons_self _ _))
      | cons t2 ts3 =>
          have hdata : (renderTokens (t :: t2 :: ts3)).data
              = t.render.data ++ ' ' :: (renderTokens (t2 :: ts3)).data := by
            show (t.render ++ " " ++ renderTokens (t2 :: ts3)).data = _
            rw [string_data_append, string_data_append]
            simp
          rw [hdata, lexAllF_render_cons t (h t (List.mem_cons_self _ _)),
            ih (fun x hx => h x (List.mem_cons_of_mem _ hx))]
          rfl

/-- C8: for every input string the lexer accepts, rendering each produced
token with the Display printer, joining with single spaces, and lexing
again yields the same token sequence. -/
theorem c8_lex_roundtrip (s : String) (ts : List Token)
    (h : Token.parse_all s = .ok ts) :
    Token.parse_all (renderTokens ts) = .ok ts := by
  have hwf := lexAllF_wf s.data.length s.data ts h
  exact lex_renderTokens ts hwf

theorem c8_lex_roundtrip_witness :
    Token.parse_all "(Lx.x)"
        = .ok [.ParenOpen, .Lambda, .Identifier "x", .Dot, .Identifier "x", .ParenClose]
    ∧ Token.parse_all (renderTokens
        [.ParenOpen, .Lambda, .Identifier "x", .Dot, .Identifier "x", .ParenClose])
        = .ok [.ParenOpen, .Lambda, .Identifier "x", .Dot, .Identifier "x", .ParenClose] :=
  ⟨by decide, c8_lex_roundtrip "(Lx.x)" _ (by decide)⟩

/-- From `parser.rs`, `enum ParseError` (pattern strings abbreviate the
stringified token patterns of the source macros). -/
inductive ParseError where
  | ExpectedToken (patterns : List String) (got : Token)
  | EmptyExpression
  | NotStartOfExpression (got : Token)
  | EOF (patterns : List String)
  | UnboundVariable (name : String)
  | TrailingTokens (tokens : List Token)
deriving DecidableEq

/-- From `parser.rs`, `struct ParseState`: the current lambda depth and
the map from bound identifier to its binder's outer depth. -/
structure ParseState where
  lambda_depth : Nat
  symbols : List (String × Nat)
deriving DecidableEq

/-- The parser's `(result, remaining, state)` / `(error, state)` outcome. -/
inductive PStep (α : Type) where
  | ok (val : α) (rest : List Token) (state : ParseState)
  | error (err : ParseError) (state : ParseState)

/-- HashMap lookup of the parser's symbol table. -/
def smGet (symbols : List (String × Nat)) (name : String) : Option Nat :=
  (symbols.find? (fun p => p.1 == name)).map (fun p => p.2)

/-- HashMap insert of the parser's symbol table: returns the previous
binding (as `HashMap::insert` does) together with the updated map. -/
def smInsert (symbols : List (String × Nat)) (name : String) (depth : Nat) :
    Option Nat × List (String × Nat) :=
  (smGet symbols name, (name, depth) :: symbols.filter (fun p => !(p.1 == name)))

/-- From `runtime.rs`, `enum Statement`. -/
inductive Statement where
  | LetStatement (b : Binding)
  | Expression (t : Term)
deriving DecidableEq

mutual

/-- From `parser.rs`, `parse_expression`, with an explicit fuel
decremented at every parser call (every production consumes at least one
token per round, so a fuel linear in the token count suffices).  The
de Bruijn index is `state.lambda_depth - parent` on u32, modelled as
integer subtraction reduced modulo 2^32. -/
def parse_expressionF : Nat → List Token → ParseState → PStep Term
  | 0, _, state => .error .EmptyExpression state
  | fuel + 1, tokens, state =>
    match tokens with
    | Token.Identifier name :: rest =>
        (match smGet state.symbols name with
         | some parent =>
             .ok (.Variable (.Bound
               ((((state.lambda_depth : Int) - parent) % 4294967296).toNat))) rest state
         | none => .ok (.Variable (.Free name)) rest state)
    | Token.ParenOpen :: rest =>
        (match (match rest with
                | [] => PStep.error (.EOF ["Lambda"]) state
                | Token.Lambda :: _ => parse_lambdaF fuel rest state
                | _ => parse_applicationF fuel none rest state) with
         | .ok expr tokens2 state2 =>
             (match tokens2 with
              | Token.ParenClose :: tokens3 => .ok expr tokens3 state2
              | [] => .error (.EOF ["ParenClose"]) state2
              | tk :: _ => .error (.ExpectedToken ["ParenClose"] tk) state2)
         | e => e)
    | [] => .error (.EOF ["Identifier(name)", "ParenOpen"]) state
    | tk :: _ => .error (.NotStartOfExpression tk) state

/-- From `parser.rs`, `parse_application`: the accumulator holds the
left-associated application built so far; on a NotStartOfExpression
failure the loop breaks, keeping the tokens from before that attempt. -/
def parse_applicationF : Nat → Option Term → List Token → ParseState → PStep Term
  | 0, _, _, state => .error .EmptyExpression state
  | fuel + 1, expr, tokens, state =>
    match parse_expressionF fuel tokens state with
    | .ok term tokens2 state2 =>
        parse_applicationF fuel
          (some (match expr with
                 | some t => Term.Application t term
                 | none => term)) tokens2 state2
    | .error (.NotStartOfExpression _) state2 =>
        (match expr with
         | some t => .ok t tokens state2
         | none => .error .EmptyExpression state2)
    | e => e

/-- From `parser.rs`, `parse_lambda`: performs the shadowing insert, and
on exit reinstates the old binding only if one was present - an
identifier unbound before the lambda stays mapped to the binder's depth. -/
def parse_lambdaF : Nat → List Token → ParseState → PStep Term
  | 0, _, state => .error .EmptyExpression state
  | fuel + 1, tokens, state =>
    match tokens with
    | Token.Lambda :: rest =>
        (match rest with
         | Token.Identifier name :: rest2 =>
             (match rest2 with
              | Token.Dot :: rest3 =>
                  (match parse_expressionF fuel rest3
                      ⟨state.lambda_depth + 1,
                        (smInsert state.symbols name state.lambda_depth).2⟩ with
                   | .ok body tokens4 state3 =>
                       (match (smInsert state.symbols name state.lambda_depth).1 with
                        | some d =>
                            .ok (.Lambda body) tokens4
                              ⟨state3.lambda_depth - 1, (smInsert state3.symbols name d).2⟩
                        | none =>
                            .ok (.Lambda body) tokens4
                              ⟨state3.lambda_depth - 1, state3.symbols⟩)
                   | e => e)
              | [] => .error (.EOF ["Dot"]) state
              | tk :: _ => .error (.ExpectedToken ["Dot"] tk) state)
         | [] => .error (.EOF ["Identifier(name)"]) state
         | tk :: _ => .error (.ExpectedToken ["Identifier(name)"] tk) state)
    | [] => .error (.EOF ["Lambda"]) state
    | tk :: _ => .error (.ExpectedToken ["Lambda"] tk) state

end

/-- From `parser.rs`, `parse_let_statement`. -/
def parse_let_statementF (fuel : Nat) (tokens : List Token) (state : ParseState) :
    PStep Binding :=
  match tokens with
  | Token.Let :: rest =>
      (match rest with
       | Token.Identifier name :: rest2 =>
           (match rest2 with
            | Token.DefineReduce :: rest3 =>
                (match parse_expressionF fuel rest3 state with
                 | .ok term tokens4 st => .ok (Binding.mk name term .CaptureAndReduce) tokens4 st
                 | .error e st => .error e st)
            | Token.DefineSuspend :: rest3 =>
                (match parse_expressionF fuel rest3 state with
                 | .ok term tokens4 st => .ok (Binding.mk name term .CaptureOnly) tokens4 st
                 | .error e st => .error e st)
            | [] => .error (.EOF ["DefineReduce", "DefineSuspend"]) state
            | tk :: _ => .error (.ExpectedToken ["DefineReduce", "DefineSuspend"] tk) state)
       | [] => .error (.EOF ["Identifier(name)"]) state
       | tk :: _ => .error (.ExpectedToken ["Identifier(name)"] tk) state)
  | [] => .error (.EOF ["Let"]) state
  | tk :: _ => .error (.ExpectedToken ["Let"] tk) state

/-- From `parser.rs`, `parse_toplevel`. -/
def parse_toplevelF (fuel : Nat) (tokens : List Token) (state : ParseState) :
    PStep Statement :=
  match tokens with
  | [] => .error (.EOF ["Let"]) state
  | Token.Let :: _ =>
      (match parse_let_statementF fuel tokens state with
       | .ok b rest st => .ok (.LetStatement b) rest st
       | .error e st => .error e st)
  | _ =>
      (match parse_expressionF fuel tokens state with
       | .ok t rest st => .ok (.Expression t) rest st
       | .error e st => .error e st)

/-- Final parse outcome as returned by `parse`. -/
inductive PResult (α : Type) where
  | ok (val : α)
  | error (err : ParseError)
deriving DecidableEq

/-- From `parser.rs`, `parse`: runs the top-level production from depth 0
with an empty symbol table and reports any remaining tokens. -/
def parse (tokens : List Token) : PResult Statement :=
  match parse_toplevelF (4 * tokens.length + 8) tokens ⟨0, []⟩ with
  | .error e _ => .error e
  | .ok statement remaining _ =>
      if remaining.isEmpty then .ok statement else .error (.TrailingTokens remaining)

/-- C1 (failing evaluation): on the accepted input "((Lx.x) x)" the
occurrence of x after the lambda - which was unbound before the lambda
and should resolve as Free("x") - is emitted as Bound(0), because
parse_lambda removes the binder's symbol-table entry on exit only when
the identifier had a previous binding. -/
theorem c1_parse_after_lambda_bound_zero :
    Token.parse_all "((Lx.x) x)"
      = .ok [.ParenOpen, .ParenOpen, .Lambda, .Identifier "x", .Dot, .Identifier "x",
          .ParenClose, .Identifier "x", .ParenClose]
    ∧ parse [.ParenOpen, .ParenOpen, .Lambda, .Identifier "x", .Dot, .Identifier "x",
          .ParenClose, .Identifier "x", .ParenClose]
      = .ok (.Expression (.Application (.Lambda (.Variable (.Bound 1)))
          (.Variable (.Bound 0)))) :=
  ⟨by decide, by decide⟩

end LambdaRust
